import Mathlib

/-!
# Printipi event scheduler (`src/code/firmware/src/scheduler.h`)

A shallow embedding of the `Scheduler` class template: the PWM table, the
event deque, the buffer size, and the member functions `orderedInsert`,
`queue`, `schedPwm`, `nextEvent`, `lastSchedTime`, `setBufferSize`,
`getBufferSize`, `numActivePwmChannels` and `eventLoop`, together with the
struct `PwmInfo`.

Modelling conventions.

* A `struct timespec` is a natural number of nanoseconds on the monotonic
  clock; `offsetNano` is addition and `timespecLt` is strict less-than.
* `unsigned` fields (`nsHigh`, `nsLow`, `bufferSize`) are natural numbers; the
  only unsigned arithmetic that could wrap, the sum in `PwmInfo::period`, is
  reduced modulo `2 ^ 32`.
* A finite `float` is a rational number, and every `float` operation returns
  the exact result rounded to the nearest binary32 value, ties to even
  (`roundBinary32`).  Overflow to infinity is not modelled.  The conversion
  `(int)x` is truncation toward zero; it is defined only for values within the
  range of `int`.
* The mutex makes every member function atomic with respect to the others, so
  a member function is a function on the scheduler state.  A call that would
  wait on a condition variable is modelled by its outcome when no other thread
  intervenes: `queue` on a full deque does not complete (`none`), `nextEvent`
  on an empty deque times out and returns the null event.  What a waiting call
  has already changed is given by `Scheduler.visibleStep`.
* `doSleep` only delays the return of `nextEvent` and the `Interface` member is
  never touched by the functions embedded here; neither is part of the state.
-/

namespace Printipi

/-- The type `AxisIdType` indexes `std::array<PwmInfo, 256>`: an 8-bit channel id. -/
abbrev AxisIdType := Fin 256

/-- The two step directions `StepForward` and `StepBackward` carried by an event. -/
inductive StepDirection
  | StepForward
  | StepBackward
  deriving DecidableEq

/-- The struct `PwmInfo` of scheduler.h: the two phase durations in nanoseconds. -/
structure PwmInfo where
  nsHigh : Nat
  nsLow : Nat
  deriving DecidableEq

/-- The default constructor `PwmInfo()`: both durations zero. -/
def PwmInfo.zero : PwmInfo := ⟨0, 0⟩

/-- The member `PwmInfo::isNonNull`: `nsHigh || nsLow`. -/
def PwmInfo.isNonNull (p : PwmInfo) : Bool := p.nsHigh != 0 || p.nsLow != 0

/-- Modelled from the spec: the `Event` value type declared in event.h, which is
not among the sources.  It has an absolute timestamp, an 8-bit channel id, a
direction tag and a null sentinel distinguishable from any real event. -/
structure Event where
  time : Nat
  stepperId : AxisIdType
  direction : StepDirection
  isNull : Bool
  deriving DecidableEq

/-- Modelled from the spec: the default constructor `Event()` of event.h, the null
event.  Its timestamp, channel and direction are placeholders. -/
def Event.null : Event := ⟨0, 0, StepDirection.StepForward, true⟩

/-- Modelled from the spec: the constructor `Event(time, stepperId, direction)` of
event.h, which builds a real (non-null) event. -/
def Event.make (t : Nat) (id : AxisIdType) (dir : StepDirection) : Event := ⟨t, id, dir, false⟩

/-- Modelled from the spec: the mutator `Event::offsetNano` of event.h, which moves
the timestamp forward by a number of nanoseconds. -/
def Event.offsetNano (e : Event) (ns : Nat) : Event := ⟨e.time + ns, e.stepperId, e.direction, e.isNull⟩

/-- Modelled from the spec: the helper `timespecLt` of timeutil.h, strict less-than
on timestamps. -/
def timespecLt (a b : Nat) : Bool := decide (a < b)

/-- Modelled from the spec: the `operator<` of `Event` from event.h used by
`std::push_heap`: events are ordered by their timestamps. -/
def Event.lt (a b : Event) : Bool := timespecLt a.time b.time

/-- The sift-up loop of `std::push_heap`: the element at index `i` climbs while its
parent at `(i - 1) / 2` compares less than it.  The first argument bounds the
number of iterations. -/
def siftUp (q : List Event) : Nat → Nat → List Event
  | 0, _ => q
  | fuel + 1, i =>
    if i = 0 then q
    else
      match q.get? ((i - 1) / 2), q.get? i with
      | some p, some c =>
        if Event.lt p c then siftUp ((q.set ((i - 1) / 2) c).set i p) fuel ((i - 1) / 2) else q
      | _, _ => q

/-- The call `std::push_heap(begin, end)`: sift the last element up. -/
def push_heap (q : List Event) : List Event := siftUp q q.length (q.length - 1)

/-- The constant `SCHED_CAPACITY`. -/
def SCHED_CAPACITY : Nat := 512

/-- The data members of `Scheduler<Interface>` that the member functions read or
write: the PWM table, the event deque (front first) and the buffer size. -/
structure Scheduler where
  pwmInfo : AxisIdType → PwmInfo
  eventQueue : List Event
  bufferSize : Nat

/-- The constructor `Scheduler::Scheduler`: every table entry is `PwmInfo()`, the
deque is empty and `bufferSize` is `SCHED_CAPACITY`. -/
def Scheduler.construct : Scheduler := ⟨fun _ => PwmInfo.zero, [], SCHED_CAPACITY⟩

/-- The member `Scheduler::orderedInsert`: `push_back(evt)`, then `push_heap` when
`timespecLt(evt.time(), eventQueue.back().time())`. -/
def Scheduler.orderedInsert (s : Scheduler) (evt : Event) : Scheduler :=
  if timespecLt evt.time ((s.eventQueue ++ [evt]).getLast (by simp)).time then
    ⟨s.pwmInfo, push_heap (s.eventQueue ++ [evt]), s.bufferSize⟩
  else
    ⟨s.pwmInfo, s.eventQueue ++ [evt], s.bufferSize⟩

/-- The member `Scheduler::queue`: waits while `eventQueue.size() >= bufferSize`
(modelled as `none`), otherwise `orderedInsert(evt)`. -/
def Scheduler.queue (s : Scheduler) (evt : Event) : Option Scheduler :=
  if s.eventQueue.length ≥ s.bufferSize then none else some (s.orderedInsert evt)

/-- The member `Scheduler::schedPwm(idx, p)`; `now` is the value of `timespecNow()`.
An already running channel only has its entry overwritten; otherwise the entry
is written and a seed event is passed to `queue`.  The result is the state
after the call has returned; when `queue` has to wait the result is `none`, and
the state seen meanwhile, with the entry already written, is given by
`Scheduler.visibleStep`. -/
def Scheduler.schedPwm (s : Scheduler) (idx : AxisIdType) (p : PwmInfo) (now : Nat) :
    Option Scheduler :=
  if (s.pwmInfo idx).nsHigh ≠ 0 ∨ (s.pwmInfo idx).nsLow ≠ 0 then
    some ⟨Function.update s.pwmInfo idx p, s.eventQueue, s.bufferSize⟩
  else
    Scheduler.queue ⟨Function.update s.pwmInfo idx p, s.eventQueue, s.bufferSize⟩
      (Event.make now idx
        (if p.nsHigh ≠ 0 then StepDirection.StepForward else StepDirection.StepBackward))

/-- The member `Scheduler::nextEvent`.  On an empty deque the wait times out and the
null event is returned.  Otherwise the front event is popped; when its channel
has a non-null `PwmInfo` the next phase event is built and passed to
`orderedInsert`. -/
def Scheduler.nextEvent (s : Scheduler) : Event × Scheduler :=
  match s.eventQueue with
  | [] => (Event.null, s)
  | evt :: rest =>
    if (s.pwmInfo evt.stepperId).isNonNull then
      if evt.direction = StepDirection.StepForward then
        (evt, Scheduler.orderedInsert ⟨s.pwmInfo, rest, s.bufferSize⟩
          ((Event.make evt.time evt.stepperId
            (if (s.pwmInfo evt.stepperId).nsLow ≠ 0 then StepDirection.StepBackward
              else StepDirection.StepForward)).offsetNano (s.pwmInfo evt.stepperId).nsHigh))
      else
        (evt, Scheduler.orderedInsert ⟨s.pwmInfo, rest, s.bufferSize⟩
          ((Event.make evt.time evt.stepperId
            (if (s.pwmInfo evt.stepperId).nsHigh ≠ 0 then StepDirection.StepForward
              else StepDirection.StepBackward)).offsetNano (s.pwmInfo evt.stepperId).nsLow))
    else
      (evt, ⟨s.pwmInfo, rest, s.bufferSize⟩)

/-- The member `Scheduler::setBufferSize`. -/
def Scheduler.setBufferSize (s : Scheduler) (size : Nat) : Scheduler :=
  ⟨s.pwmInfo, s.eventQueue, size⟩

/-- The member `Scheduler::getBufferSize`. -/
def Scheduler.getBufferSize (s : Scheduler) : Nat := s.bufferSize

/-- The state after `n` successive `nextEvent` calls. -/
def Scheduler.drain (s : Scheduler) : Nat → Scheduler
  | 0 => s
  | n + 1 => Scheduler.drain (s.nextEvent).2 n

/-- The event returned by call number `n` (counted from 0) of successive
`nextEvent` calls. -/
def Scheduler.nthEvent (s : Scheduler) (n : Nat) : Event := ((s.drain n).nextEvent).1

/-- One call of a public member function of the scheduler. -/
inductive Op
  | queue (evt : Event)
  | nextEvent
  | schedPwm (idx : AxisIdType) (p : PwmInfo) (now : Nat)
  | setBufferSize (size : Nat)

/-- The effect of one call on the state; `none` when the call does not complete. -/
def Scheduler.step (s : Scheduler) : Op → Option Scheduler
  | Op.queue evt => s.queue evt
  | Op.nextEvent => some (s.nextEvent).2
  | Op.schedPwm idx p now => s.schedPwm idx p now
  | Op.setBufferSize size => some (s.setBufferSize size)

/-- The effect of a sequence of calls, each atomic, from the state `s`. -/
def Scheduler.run (s : Scheduler) : List Op → Option Scheduler
  | [] => some s
  | op :: ops => (s.step op).bind (fun s1 => Scheduler.run s1 ops)

/-- No `setBufferSize` call of the sequence sets the buffer size below the number of
events queued at the time of the call. -/
def Scheduler.respectsSize (s : Scheduler) : List Op → Bool
  | [] => true
  | op :: ops =>
    (match op with
      | Op.setBufferSize size => decide (s.eventQueue.length ≤ size)
      | _ => true) &&
    (match s.step op with
      | some s1 => Scheduler.respectsSize s1 ops
      | none => true)

/-- Every channel with an active table entry has an event in the queue. -/
def Scheduler.ActivePending (s : Scheduler) : Prop :=
  ∀ id : AxisIdType, ((s.pwmInfo id).nsHigh ≠ 0 ∨ (s.pwmInfo id).nsLow ≠ 0) →
    ∃ e ∈ s.eventQueue, e.stepperId = id

/-- The member `Scheduler::lastSchedTime`; `now` is the reading of the monotonic
clock.  With a non-empty deque it is the time of `eventQueue.back()`. -/
def Scheduler.lastSchedTime (s : Scheduler) (now : Nat) : Nat :=
  match s.eventQueue.getLast? with
  | some evt => evt.time
  | none => now

/-- The member `Scheduler::numActivePwmChannels`: the counting loop over the 256
table entries. -/
def Scheduler.numActivePwmChannels (s : Scheduler) : Nat :=
  (List.finRange 256).foldl (fun r i => if (s.pwmInfo i).isNonNull then r + 1 else r) 0

/-- Rounding of a rational number to the nearest integer, ties to the even
integer. -/
def roundTiesEven (q : ℚ) : ℤ :=
  if q - ⌊q⌋ < 1 / 2 then ⌊q⌋
  else if 1 / 2 < q - ⌊q⌋ then ⌊q⌋ + 1
  else if ⌊q⌋ % 2 = 0 then ⌊q⌋ else ⌊q⌋ + 1

/-- The spacing of the binary32 values around `x`: `2 ^ (e - 23)`, where `e` is the
exponent of the leading bit of `x`, not below the smallest normal exponent
`-126`. -/
def binary32Ulp (x : ℚ) : ℚ := 2 ^ (max (Int.log 2 |x|) (-126) - 23)

/-- The result of a `float` operation whose exact result is `x`: the nearest
binary32 value, ties to even, subnormal values included.  Overflow to infinity
is not modelled. -/
def roundBinary32 (x : ℚ) : ℚ := roundTiesEven (x / binary32Ulp x) * binary32Ulp x

/-- The conversion `(int)x` of a floating-point value: truncation toward zero.  The
conversion is defined only when the truncated value lies within the range of
`int`. -/
def truncToInt (x : ℚ) : Int := if 0 ≤ x then ⌊x⌋ else ⌈x⌉

/-- The constructor `PwmInfo(float duty, float period)`: each field is
`std::max(0, (int)(...))` of its product, stored as `unsigned`.  The products
`duty*period*1000000000` and `(1-duty)*period*1000000000` are evaluated from
left to right, each operation rounded to binary32. -/
def PwmInfo.ofDutyPeriod (duty period : ℚ) : PwmInfo :=
  ⟨(max 0 (truncToInt
      (roundBinary32 (roundBinary32 (duty * period) * 1000000000)))).toNat,
   (max 0 (truncToInt
      (roundBinary32 (roundBinary32 (roundBinary32 (1 - duty) * period) * 1000000000)))).toNat⟩

/-- The member `PwmInfo::period`: the unsigned sum `nsHigh + nsLow` converted to
`float`, which rounds it to binary32. -/
def PwmInfo.period (p : PwmInfo) : ℚ :=
  roundBinary32 (((p.nsHigh + p.nsLow) % 2 ^ 32 : Nat) : ℚ)

/-- The inline overload `Scheduler::schedPwm(idx, duty)`: builds
`PwmInfo(duty, pwmInfo[idx].period())` and passes it to `schedPwm(idx, p)`. -/
def Scheduler.schedPwmDuty (s : Scheduler) (idx : AxisIdType) (duty : ℚ) (now : Nat) :
    Option Scheduler :=
  s.schedPwm idx (PwmInfo.ofDutyPeriod duty (s.pwmInfo idx).period) now

/-- The reading of `orderedInsert` given by the specification: the event is appended
at the back of the queue and nothing else happens. -/
def Scheduler.appendAtBack (s : Scheduler) (evt : Event) : Scheduler :=
  ⟨s.pwmInfo, s.eventQueue ++ [evt], s.bufferSize⟩

/-- Modelled from the spec: the member `Event::isTime` of event.h; an event is due
when the clock reading `now` has reached its time. -/
def Event.isTime (e : Event) (now : Nat) : Bool := decide (e.time ≤ now)

/-- The surroundings of `eventLoop`: `clock k` is the clock reading taken by the
`k`-th evaluation of `evt.isTime()`, `onWait k` is the `k`-th call of the
`onWait` callback and `onEvent` is the `onEvent` callback.  The callbacks may
change the scheduler in any way before they return. -/
structure LoopEnv where
  clock : Nat → Nat
  onWait : Nat → Scheduler → Bool × Scheduler
  onEvent : Event → Scheduler → Scheduler

/-- One call `onEvent(evt)` made by `eventLoop`: the scheduler state on which
`nextEvent` was called, the event passed to `onEvent`, and the clock reading of
the last `evt.isTime()` evaluation before the call. -/
structure Delivery where
  source : Scheduler
  evt : Event
  now : Nat

/-- The progress of `eventLoop`: the scheduler, the number of clock readings and of
`onWait` calls made so far, and the `onEvent` calls made so far, oldest first. -/
structure LoopState where
  sched : Scheduler
  clockReads : Nat
  waitCalls : Nat
  delivered : List Delivery

/-- The inner loop `while (!evt.isTime()) { if (!onWait()) sleepUntilEvent(evt); }` of
`eventLoop`.  Sleeping changes nothing but the clock.  The result is the clock
reading at which `isTime` held; `none` when the iteration bound is used up. -/
def waitForEvent (env : LoopEnv) (evt : Event) : Nat → LoopState → Option (Nat × LoopState)
  | 0, _ => none
  | fuel + 1, st =>
    if evt.isTime (env.clock st.clockReads) then
      some (env.clock st.clockReads, ⟨st.sched, st.clockReads + 1, st.waitCalls, st.delivered⟩)
    else
      waitForEvent env evt fuel
        ⟨(env.onWait st.waitCalls st.sched).2, st.clockReads + 1, st.waitCalls + 1, st.delivered⟩

/-- The member template `Scheduler::eventLoop`, cut after a number of passes through
the body of `while (1)`; `fuel` bounds each run of the inner loop.  The value of
`needCpuTime` only selects the timeout of `nextEvent`. -/
def eventLoop (env : LoopEnv) (fuel : Nat) : Nat → LoopState → Option LoopState
  | 0, st => some st
  | passes + 1, st =>
    if ((env.onWait st.waitCalls st.sched).2.nextEvent).1.isNull then
      eventLoop env fuel passes
        ⟨((env.onWait st.waitCalls st.sched).2.nextEvent).2, st.clockReads, st.waitCalls + 1,
          st.delivered⟩
    else
      match waitForEvent env ((env.onWait st.waitCalls st.sched).2.nextEvent).1 fuel
          ⟨((env.onWait st.waitCalls st.sched).2.nextEvent).2, st.clockReads, st.waitCalls + 1,
            st.delivered⟩ with
      | none => none
      | some (now, st1) =>
        eventLoop env fuel passes
          ⟨env.onEvent ((env.onWait st.waitCalls st.sched).2.nextEvent).1 st1.sched,
            st1.clockReads, st1.waitCalls,
            st1.delivered ++
              [⟨(env.onWait st.waitCalls st.sched).2,
                ((env.onWait st.waitCalls st.sched).2.nextEvent).1, now⟩]⟩

/-! ## Basic facts -/

theorem timespecLt_irrefl (t : Nat) : timespecLt t t = false := by
  simp [timespecLt]

theorem orderedInsert_eq (s : Scheduler) (evt : Event) :
    s.orderedInsert evt = ⟨s.pwmInfo, s.eventQueue ++ [evt], s.bufferSize⟩ := by
  simp [Scheduler.orderedInsert, timespecLt_irrefl]

theorem nextEvent_cons (s : Scheduler) (evt : Event) (rest : List Event)
    (hq : s.eventQueue = evt :: rest) :
    s.nextEvent =
      if (s.pwmInfo evt.stepperId).isNonNull then
        if evt.direction = StepDirection.StepForward then
          (evt, ⟨s.pwmInfo, rest ++ [Event.make (evt.time + (s.pwmInfo evt.stepperId).nsHigh)
            evt.stepperId (if (s.pwmInfo evt.stepperId).nsLow ≠ 0 then StepDirection.StepBackward
              else StepDirection.StepForward)], s.bufferSize⟩)
        else
          (evt, ⟨s.pwmInfo, rest ++ [Event.make (evt.time + (s.pwmInfo evt.stepperId).nsLow)
            evt.stepperId (if (s.pwmInfo evt.stepperId).nsHigh ≠ 0 then StepDirection.StepForward
              else StepDirection.StepBackward)], s.bufferSize⟩)
      else (evt, ⟨s.pwmInfo, rest, s.bufferSize⟩) := by
  simp only [Scheduler.nextEvent, hq, orderedInsert_eq, Event.make, Event.offsetNano]

theorem isNonNull_iff (p : PwmInfo) : p.isNonNull = true ↔ (p.nsHigh ≠ 0 ∨ p.nsLow ≠ 0) := by
  simp [PwmInfo.isNonNull]

theorem drain_succ_last (s : Scheduler) (n : Nat) :
    s.drain (n + 1) = ((s.drain n).nextEvent).2 := by
  induction n generalizing s with
  | zero => rfl
  | succ k ih =>
    show Scheduler.drain (s.nextEvent).2 (k + 1) = _
    rw [ih]
    rfl

theorem queue_of_lt (s : Scheduler) (evt : Event) (hcap : s.eventQueue.length < s.bufferSize) :
    s.queue evt = some ⟨s.pwmInfo, s.eventQueue ++ [evt], s.bufferSize⟩ := by
  simp [Scheduler.queue, orderedInsert_eq, Nat.not_le.2 hcap]

theorem queue_of_ge (s : Scheduler) (evt : Event) (hfull : s.bufferSize ≤ s.eventQueue.length) :
    s.queue evt = none := by
  simp [Scheduler.queue, hfull]

/-- A pop returns the front event and leaves the remaining events followed by a
(possibly empty) tail of fresh events, all on the channel of the popped event. -/
theorem nextEvent_shape (s : Scheduler) (evt : Event) (rest : List Event)
    (hq : s.eventQueue = evt :: rest) :
    (s.nextEvent).1 = evt ∧ (s.nextEvent).2.pwmInfo = s.pwmInfo ∧
    (s.nextEvent).2.bufferSize = s.bufferSize ∧
    ∃ tail : List Event, (s.nextEvent).2.eventQueue = rest ++ tail ∧
      (∀ x ∈ tail, x.stepperId = evt.stepperId) ∧
      tail.length = (if (s.pwmInfo evt.stepperId).isNonNull then 1 else 0) := by
  have hcons := nextEvent_cons s evt rest hq
  by_cases hnn : (s.pwmInfo evt.stepperId).isNonNull = true
  · by_cases hd : evt.direction = StepDirection.StepForward
    · rw [if_pos hnn, if_pos hd] at hcons
      rw [hcons]
      exact ⟨rfl, rfl, rfl, _, rfl, by simp [Event.make], by simp [hnn]⟩
    · rw [if_pos hnn, if_neg hd] at hcons
      rw [hcons]
      exact ⟨rfl, rfl, rfl, _, rfl, by simp [Event.make], by simp [hnn]⟩
  · rw [if_neg hnn] at hcons
    rw [hcons]
    exact ⟨rfl, rfl, rfl, [], by simp, by simp, by simp [hnn]⟩

theorem nextEvent_nil (s : Scheduler) (hq : s.eventQueue = []) :
    s.nextEvent = (Event.null, s) := by
  simp [Scheduler.nextEvent, hq]

/-- The deque is served first in, first out: call number `k` of successive
`nextEvent` calls returns the event at position `k` of the queue. -/
theorem nthEvent_of_get (k : Nat) : ∀ (s : Scheduler) (e : Event),
    s.eventQueue[k]? = some e → s.nthEvent k = e := by
  induction k with
  | zero =>
    intro s e hk
    cases hq : s.eventQueue with
    | nil => simp [hq] at hk
    | cons evt rest =>
      simp only [hq, List.getElem?_cons_zero, Option.some.injEq] at hk
      subst hk
      exact (nextEvent_shape s evt rest hq).1
  | succ n ih =>
    intro s e hk
    cases hq : s.eventQueue with
    | nil => simp [hq] at hk
    | cons evt rest =>
      simp only [hq, List.getElem?_cons_succ] at hk
      obtain ⟨_, _, _, tail, htail, _, _⟩ := nextEvent_shape s evt rest hq
      show Scheduler.nthEvent (s.nextEvent).2 n = e
      apply ih
      rw [htail]
      have hlt : n < rest.length := by
        by_contra hge
        rw [List.getElem?_eq_none (Nat.le_of_not_lt hge)] at hk
        cases hk
      rw [List.getElem?_append_left hlt]
      exact hk

/-- Popping the events in front of `e` never touches `e` and never adds an event of
a channel that does not occur in front of `e`. -/
theorem drain_prefix (id : AxisIdType) : ∀ (pre : List Event) (s : Scheduler) (e : Event)
    (post : List Event), s.eventQueue = pre ++ e :: post →
    (∀ x ∈ pre, x.stepperId ≠ id) → (∀ x ∈ post, x.stepperId ≠ id) →
    (s.drain pre.length).pwmInfo = s.pwmInfo ∧
    (s.drain pre.length).bufferSize = s.bufferSize ∧
    ∃ rest : List Event, (s.drain pre.length).eventQueue = e :: rest ∧
      ∀ x ∈ rest, x.stepperId ≠ id := by
  intro pre
  induction pre with
  | nil =>
    intro s e post hq _ hpost
    exact ⟨rfl, rfl, post, by simpa using hq, hpost⟩
  | cons x pre ih =>
    intro s e post hq hpre hpost
    obtain ⟨_, htab, hbuf, tail, htail, hids, _⟩ :=
      nextEvent_shape s x (pre ++ e :: post) (by simpa using hq)
    have hx : x.stepperId ≠ id := hpre x (by simp)
    have hstep := ih (s.nextEvent).2 e (post ++ tail) (by simp [htail])
      (fun y hy => hpre y (by simp [hy]))
      (fun y hy => by
        rcases List.mem_append.1 hy with h | h
        · exact hpost y h
        · rw [hids y h]
          exact hx)
    obtain ⟨h1, h2, rest, h3, h4⟩ := hstep
    exact ⟨h1.trans htab, h2.trans hbuf, rest, h3, h4⟩

/-- The two ways in which `schedPwm` completes. -/
theorem schedPwm_some (s s1 : Scheduler) (idx : AxisIdType) (p : PwmInfo) (now : Nat)
    (h : s.schedPwm idx p now = some s1) :
    (((s.pwmInfo idx).nsHigh ≠ 0 ∨ (s.pwmInfo idx).nsLow ≠ 0) ∧
      s1 = ⟨Function.update s.pwmInfo idx p, s.eventQueue, s.bufferSize⟩) ∨
    (¬ ((s.pwmInfo idx).nsHigh ≠ 0 ∨ (s.pwmInfo idx).nsLow ≠ 0) ∧
      s.eventQueue.length < s.bufferSize ∧
      s1 = ⟨Function.update s.pwmInfo idx p,
        s.eventQueue ++ [Event.make now idx
          (if p.nsHigh ≠ 0 then StepDirection.StepForward else StepDirection.StepBackward)],
        s.bufferSize⟩) := by
  unfold Scheduler.schedPwm at h
  by_cases hact : (s.pwmInfo idx).nsHigh ≠ 0 ∨ (s.pwmInfo idx).nsLow ≠ 0
  · rw [if_pos hact] at h
    exact Or.inl ⟨hact, (Option.some.inj h).symm⟩
  · rw [if_neg hact] at h
    by_cases hcap : s.eventQueue.length < s.bufferSize
    · rw [queue_of_lt ⟨Function.update s.pwmInfo idx p, s.eventQueue, s.bufferSize⟩ _ hcap] at h
      exact Or.inr ⟨hact, hcap, (Option.some.inj h).symm⟩
    · rw [queue_of_ge ⟨Function.update s.pwmInfo idx p, s.eventQueue, s.bufferSize⟩ _
        (Nat.le_of_not_lt hcap)] at h
      cases h

theorem nextEvent_length_le (s : Scheduler) :
    (s.nextEvent).2.eventQueue.length ≤ s.eventQueue.length ∧
    (s.nextEvent).2.bufferSize = s.bufferSize := by
  cases hq : s.eventQueue with
  | nil => simp [nextEvent_nil s hq, hq]
  | cons evt rest =>
    obtain ⟨_, _, hbuf, tail, htail, _, hlen⟩ := nextEvent_shape s evt rest hq
    refine ⟨?_, hbuf⟩
    rw [htail, List.length_append, hlen]
    split_ifs <;> simp

theorem step_preserves_size (s s1 : Scheduler) (op : Op)
    (hinv : s.eventQueue.length ≤ s.bufferSize) (hstep : s.step op = some s1)
    (hop : ∀ size, op = Op.setBufferSize size → s.eventQueue.length ≤ size) :
    s1.eventQueue.length ≤ s1.bufferSize := by
  cases op with
  | queue evt =>
    simp only [Scheduler.step, Scheduler.queue] at hstep
    split_ifs at hstep with hfull
    cases hstep
    rw [orderedInsert_eq]
    simp only [List.length_append, List.length_singleton]
    omega
  | nextEvent =>
    simp only [Scheduler.step, Option.some.injEq] at hstep
    subst hstep
    have h := nextEvent_length_le s
    omega
  | schedPwm idx p now =>
    rcases schedPwm_some s s1 idx p now hstep with ⟨_, h1⟩ | ⟨_, hcap, h1⟩
    · subst h1
      exact hinv
    · subst h1
      simp only [List.length_append, List.length_singleton]
      omega
  | setBufferSize size =>
    simp only [Scheduler.step, Option.some.injEq] at hstep
    subst hstep
    exact hop size rfl

theorem run_preserves_size : ∀ (ops : List Op) (s0 s : Scheduler),
    s0.eventQueue.length ≤ s0.bufferSize → Scheduler.run s0 ops = some s →
    s0.respectsSize ops = true → s.eventQueue.length ≤ s.bufferSize := by
  intro ops
  induction ops with
  | nil =>
    intro s0 s hinv hrun _
    simp only [Scheduler.run, Option.some.injEq] at hrun
    subst hrun
    exact hinv
  | cons op ops ih =>
    intro s0 s hinv hrun hresp
    simp only [Scheduler.run] at hrun
    cases hstep : s0.step op with
    | none => simp [hstep] at hrun
    | some s1 =>
      simp only [hstep, Option.some_bind] at hrun
      simp only [Scheduler.respectsSize, hstep, Bool.and_eq_true] at hresp
      refine ih s1 s (step_preserves_size s0 s1 op hinv hstep ?_) hrun hresp.2
      intro size hsize
      subst hsize
      simpa using hresp.1

theorem step_preserves_pending (s s1 : Scheduler) (op : Op)
    (hinv : s.ActivePending) (hstep : s.step op = some s1) : s1.ActivePending := by
  cases op with
  | queue evt =>
    simp only [Scheduler.step, Scheduler.queue] at hstep
    split_ifs at hstep with hfull
    cases hstep
    rw [orderedInsert_eq]
    intro id hact
    obtain ⟨e, he, hid⟩ := hinv id hact
    exact ⟨e, List.mem_append_left _ he, hid⟩
  | nextEvent =>
    simp only [Scheduler.step, Option.some.injEq] at hstep
    subst hstep
    cases hq : s.eventQueue with
    | nil =>
      rw [nextEvent_nil s hq]
      exact hinv
    | cons evt rest =>
      obtain ⟨_, htab, _, tail, htail, hids, hlen⟩ := nextEvent_shape s evt rest hq
      intro id hact
      rw [htab] at hact
      obtain ⟨e, he, hid⟩ := hinv id hact
      rw [hq] at he
      rw [htail]
      rcases List.mem_cons.1 he with h | h
      · subst h
        subst hid
        rw [if_pos ((isNonNull_iff _).2 hact)] at hlen
        obtain ⟨x, hx⟩ := List.exists_mem_of_length_pos (by omega : 0 < tail.length)
        exact ⟨x, List.mem_append_right _ hx, hids x hx⟩
      · exact ⟨e, List.mem_append_left _ h, hid⟩
  | schedPwm idx p now =>
    rcases schedPwm_some s s1 idx p now hstep with ⟨hact0, h1⟩ | ⟨_, _, h1⟩
    · subst h1
      intro id hact
      by_cases hid : id = idx
      · subst hid
        exact hinv id hact0
      · simp only [Function.update_noteq hid] at hact
        exact hinv id hact
    · subst h1
      intro id hact
      by_cases hid : id = idx
      · subst hid
        exact ⟨_, List.mem_append_right _ (List.mem_singleton_self _), rfl⟩
      · simp only [Function.update_noteq hid] at hact
        obtain ⟨e, he, heid⟩ := hinv id hact
        exact ⟨e, List.mem_append_left _ he, heid⟩
  | setBufferSize size =>
    simp only [Scheduler.step, Option.some.injEq] at hstep
    subst hstep
    exact hinv

theorem run_preserves_pending : ∀ (ops : List Op) (s0 s : Scheduler),
    s0.ActivePending → Scheduler.run s0 ops = some s → s.ActivePending := by
  intro ops
  induction ops with
  | nil =>
    intro s0 s hinv hrun
    simp only [Scheduler.run, Option.some.injEq] at hrun
    subst hrun
    exact hinv
  | cons op ops ih =>
    intro s0 s hinv hrun
    simp only [Scheduler.run] at hrun
    cases hstep : s0.step op with
    | none => simp [hstep] at hrun
    | some s1 =>
      simp only [hstep, Option.some_bind] at hrun
      exact ih s1 s (step_preserves_pending s0 s1 op hinv hstep) hrun

/-- C1 (evaluation at the failing input): after queueing events at `T+0`, `T+5ms`,
`T+2ms` (here `T = 0`, all on channel 1) into a freshly constructed scheduler,
three successive `nextEvent` calls return them in insertion order `T+0`, `T+5ms`,
`T+2ms`; the second call returns the `T+5ms` event while the earlier `T+2ms`
event is still queued. -/
theorem C1_nextEvent_returns_insertion_order :
    (Scheduler.run Scheduler.construct
        [Op.queue (Event.make 0 1 StepDirection.StepForward),
         Op.queue (Event.make 5000000 1 StepDirection.StepForward),
         Op.queue (Event.make 2000000 1 StepDirection.StepForward)]).map
      (fun s => ([s.nthEvent 0, s.nthEvent 1, s.nthEvent 2], (s.drain 1).eventQueue))
      = some ([Event.make 0 1 StepDirection.StepForward,
               Event.make 5000000 1 StepDirection.StepForward,
               Event.make 2000000 1 StepDirection.StepForward],
              [Event.make 5000000 1 StepDirection.StepForward,
               Event.make 2000000 1 StepDirection.StepForward]) := by
  decide

/-- C2: when the front event `evt` of a non-empty queue belongs to a channel with an
active `PwmInfo`, `nextEvent` returns `evt` and the queue afterwards is the
remaining events followed by exactly one successor on the same channel: at
`evt.time + nsHigh` (Backward when `nsLow ≠ 0`, otherwise Forward) for a Forward
`evt`, at `evt.time + nsLow` (Forward when `nsHigh ≠ 0`, otherwise Backward) for
a Backward `evt`. -/
theorem C2_nextEvent_inserts_pwm_successor (s : Scheduler) (evt : Event) (rest : List Event)
    (hq : s.eventQueue = evt :: rest)
    (hact : (s.pwmInfo evt.stepperId).nsHigh ≠ 0 ∨ (s.pwmInfo evt.stepperId).nsLow ≠ 0) :
    (s.nextEvent).1 = evt ∧
    (s.nextEvent).2.pwmInfo = s.pwmInfo ∧
    (s.nextEvent).2.bufferSize = s.bufferSize ∧
    ∃ succ : Event, (s.nextEvent).2.eventQueue = rest ++ [succ] ∧
      succ.stepperId = evt.stepperId ∧ succ.isNull = false ∧
      (evt.direction = StepDirection.StepForward →
        succ.time = evt.time + (s.pwmInfo evt.stepperId).nsHigh ∧
        succ.direction = (if (s.pwmInfo evt.stepperId).nsLow ≠ 0 then StepDirection.StepBackward
          else StepDirection.StepForward)) ∧
      (evt.direction = StepDirection.StepBackward →
        succ.time = evt.time + (s.pwmInfo evt.stepperId).nsLow ∧
        succ.direction = (if (s.pwmInfo evt.stepperId).nsHigh ≠ 0 then StepDirection.StepForward
          else StepDirection.StepBackward)) := by
  have hnn : (s.pwmInfo evt.stepperId).isNonNull = true := (isNonNull_iff _).2 hact
  rw [nextEvent_cons s evt rest hq, if_pos hnn]
  cases hd : evt.direction with
  | StepForward =>
    rw [if_pos rfl]
    exact ⟨rfl, rfl, rfl, _, rfl, rfl, rfl, fun _ => ⟨rfl, rfl⟩,
      fun h => by cases h⟩
  | StepBackward =>
    rw [if_neg (by decide)]
    exact ⟨rfl, rfl, rfl, _, rfl, rfl, rfl, fun h => (by cases h),
      fun _ => ⟨rfl, rfl⟩⟩

/-- Witness for C2: channel 7 with `PwmInfo {3, 0}` and a Forward event at time 10
in front of one other event. -/
theorem C2_nextEvent_inserts_pwm_successor_witness :
    ((⟨Function.update (fun _ => PwmInfo.zero) 7 ⟨3, 0⟩,
        [Event.make 10 7 StepDirection.StepForward, Event.make 11 2 StepDirection.StepBackward],
        4⟩ : Scheduler).nextEvent).2.eventQueue =
      [Event.make 11 2 StepDirection.StepBackward, Event.make 13 7 StepDirection.StepForward] := by
  obtain ⟨_, _, _, succ, hq, hid, hnull, hf, _⟩ :=
    C2_nextEvent_inserts_pwm_successor
      ⟨Function.update (fun _ => PwmInfo.zero) 7 ⟨3, 0⟩,
        [Event.make 10 7 StepDirection.StepForward, Event.make 11 2 StepDirection.StepBackward], 4⟩
      (Event.make 10 7 StepDirection.StepForward) [Event.make 11 2 StepDirection.StepBackward]
      rfl (Or.inl (by decide))
  obtain ⟨ht, hd⟩ := hf rfl
  rw [hq]
  cases succ
  simp only [Event.make] at *
  subst hid hnull ht hd
  simp [Function.update, PwmInfo.zero]

theorem drain_single_pwm (s : Scheduler) (id : AxisIdType) (h l t0 : Nat)
    (hh : h ≠ 0) (hl : l ≠ 0) (htab : s.pwmInfo id = ⟨h, l⟩)
    (hq : s.eventQueue = [Event.make t0 id StepDirection.StepForward]) (n : Nat) :
    s.drain n = ⟨s.pwmInfo,
      [Event.make (t0 + ((n + 1) / 2) * h + (n / 2) * l) id
        (if n % 2 = 0 then StepDirection.StepForward else StepDirection.StepBackward)],
      s.bufferSize⟩ := by
  induction n with
  | zero =>
    cases s
    simp only [Scheduler.drain] at *
    simp [hq]
  | succ k ih =>
    rw [drain_succ_last, ih, nextEvent_cons _ _ [] rfl]
    have hnn : (⟨h, l⟩ : PwmInfo).isNonNull = true := by simp [PwmInfo.isNonNull, hh]
    simp only [Event.make, htab, hnn, if_true, List.nil_append]
    rcases Nat.even_or_odd' k with ⟨m, rfl | rfl⟩
    · have e1 : (2 * m + 1) / 2 = m := by omega
      have e2 : (2 * m) / 2 = m := by omega
      have e3 : (2 * m + 1 + 1) / 2 = m + 1 := by omega
      have e4 : (2 * m) % 2 = 0 := by omega
      have e5 : (2 * m + 1) % 2 = 1 := by omega
      simp only [e1, e2, e3, e4, e5, if_true, hl, ne_eq, not_false_eq_true]
      simp
      ring
    · have e1 : (2 * m + 1) / 2 = m := by omega
      have e3 : (2 * m + 1 + 1) / 2 = m + 1 := by omega
      have e4 : (2 * m + 1 + 1) % 2 = 0 := by omega
      have e5 : (2 * m + 1) % 2 = 1 := by omega
      have e6 : (2 * m + 1 + 1 + 1) / 2 = m + 1 := by omega
      simp only [e1, e3, e4, e5, e6, hh, ne_eq, not_false_eq_true]
      simp
      ring

/-- C3: with table entry `{h, l}` for channel `id`, `h ≠ 0`, `l ≠ 0`, and a queue
holding the single event `(t0, id, Forward)`, the event returned by call number
`n` of successive `nextEvent` calls is on channel `id`, Forward for even `n` and
Backward for odd `n`, at time `t0 + ⌈n/2⌉ * h + ⌊n/2⌋ * l`. -/
theorem C3_pwm_alternating_sequence (s : Scheduler) (id : AxisIdType) (h l t0 : Nat)
    (hh : h ≠ 0) (hl : l ≠ 0) (htab : s.pwmInfo id = ⟨h, l⟩)
    (hq : s.eventQueue = [Event.make t0 id StepDirection.StepForward]) (n : Nat) :
    s.nthEvent n = Event.make (t0 + ((n + 1) / 2) * h + (n / 2) * l) id
      (if n % 2 = 0 then StepDirection.StepForward else StepDirection.StepBackward) := by
  unfold Scheduler.nthEvent
  rw [drain_single_pwm s id h l t0 hh hl htab hq n, nextEvent_cons _ _ [] rfl]
  split_ifs <;> rfl

/-- Witness for C3: channel 7 with `{1000000, 1000000}` seeded Forward at time 50;
call number 3 returns the Backward event at `50 + 2 * 1000000 + 1 * 1000000`. -/
theorem C3_pwm_alternating_sequence_witness :
    (⟨Function.update (fun _ => PwmInfo.zero) 7 ⟨1000000, 1000000⟩,
        [Event.make 50 7 StepDirection.StepForward], 512⟩ : Scheduler).nthEvent 3 =
      Event.make 3000050 7 StepDirection.StepBackward :=
  C3_pwm_alternating_sequence
    ⟨Function.update (fun _ => PwmInfo.zero) 7 ⟨1000000, 1000000⟩,
      [Event.make 50 7 StepDirection.StepForward], 512⟩ 7 1000000 1000000 50
    (by decide) (by decide) (by simp [Function.update]) rfl 3

/-- C4: when the table entry of channel `idx` is `{0, 0}` and the queue is below
capacity, `schedPwm(idx, p)` completes, sets the entry of `idx` to `p`, leaves
every other entry and the capacity unchanged, and adds exactly one event at the
back of the queue: on channel `idx`, at the current time, Forward if
`p.nsHigh ≠ 0` and Backward otherwise. -/
theorem C4_schedPwm_inactive_writes_and_seeds (s : Scheduler) (idx : AxisIdType) (p : PwmInfo)
    (now : Nat) (hzero : s.pwmInfo idx = ⟨0, 0⟩) (hcap : s.eventQueue.length < s.bufferSize) :
    ∃ s1 : Scheduler, s.schedPwm idx p now = some s1 ∧
      s1.pwmInfo idx = p ∧ (∀ j, j ≠ idx → s1.pwmInfo j = s.pwmInfo j) ∧
      s1.bufferSize = s.bufferSize ∧
      ∃ seed : Event, s1.eventQueue = s.eventQueue ++ [seed] ∧
        seed.stepperId = idx ∧ seed.time = now ∧ seed.isNull = false ∧
        seed.direction = (if p.nsHigh ≠ 0 then StepDirection.StepForward
          else StepDirection.StepBackward) := by
  have hbr : ¬ ((s.pwmInfo idx).nsHigh ≠ 0 ∨ (s.pwmInfo idx).nsLow ≠ 0) := by simp [hzero]
  refine ⟨⟨Function.update s.pwmInfo idx p, s.eventQueue ++ [Event.make now idx
    (if p.nsHigh ≠ 0 then StepDirection.StepForward else StepDirection.StepBackward)],
    s.bufferSize⟩, ?_, ?_, ?_, rfl, _, rfl, rfl, rfl, rfl, rfl⟩
  · rw [Scheduler.schedPwm, if_neg hbr]
    exact queue_of_lt _ _ hcap
  · simp
  · intro j hj
    simp [Function.update, hj]

/-- Witness for C4: `schedPwm(7, {0, 2000})` at time 42 on a freshly constructed
scheduler. -/
theorem C4_schedPwm_inactive_writes_and_seeds_witness :
    ∃ s1 : Scheduler, Scheduler.construct.schedPwm 7 ⟨0, 2000⟩ 42 = some s1 ∧
      s1.pwmInfo 7 = ⟨0, 2000⟩ ∧ (∀ j, j ≠ 7 → s1.pwmInfo j = Scheduler.construct.pwmInfo j) ∧
      s1.bufferSize = Scheduler.construct.bufferSize ∧
      ∃ seed : Event, s1.eventQueue = Scheduler.construct.eventQueue ++ [seed] ∧
        seed.stepperId = 7 ∧ seed.time = 42 ∧ seed.isNull = false ∧
        seed.direction = (if (⟨0, 2000⟩ : PwmInfo).nsHigh ≠ 0 then StepDirection.StepForward
          else StepDirection.StepBackward) :=
  C4_schedPwm_inactive_writes_and_seeds Scheduler.construct 7 ⟨0, 2000⟩ 42 rfl (by decide)

/-- C5: when the table entry of channel `idx` is active, `schedPwm(idx, p)` completes,
overwrites the entry of `idx` with `p` and changes nothing else: the queue, the
capacity and every other table entry are unchanged. -/
theorem C5_schedPwm_active_only_overwrites (s : Scheduler) (idx : AxisIdType) (p : PwmInfo)
    (now : Nat) (hact : (s.pwmInfo idx).nsHigh ≠ 0 ∨ (s.pwmInfo idx).nsLow ≠ 0) :
    ∃ s1 : Scheduler, s.schedPwm idx p now = some s1 ∧
      s1.pwmInfo idx = p ∧ (∀ j, j ≠ idx → s1.pwmInfo j = s.pwmInfo j) ∧
      s1.eventQueue = s.eventQueue ∧ s1.bufferSize = s.bufferSize := by
  refine ⟨⟨Function.update s.pwmInfo idx p, s.eventQueue, s.bufferSize⟩, ?_, ?_, ?_, rfl, rfl⟩
  · rw [Scheduler.schedPwm, if_pos hact]
  · simp
  · intro j hj
    simp [Function.update, hj]

/-- Witness for C5: channel 7 running with `{3, 4}` is rescheduled to `{5, 6}` while
one event is queued and the capacity is 1. -/
theorem C5_schedPwm_active_only_overwrites_witness :
    ∃ s1 : Scheduler,
      (⟨Function.update (fun _ => PwmInfo.zero) 7 ⟨3, 4⟩,
        [Event.make 10 7 StepDirection.StepForward], 1⟩ : Scheduler).schedPwm 7 ⟨5, 6⟩ 42
        = some s1 ∧
      s1.pwmInfo 7 = ⟨5, 6⟩ ∧
      (∀ j, j ≠ 7 → s1.pwmInfo j = Function.update (fun _ => PwmInfo.zero) 7 ⟨3, 4⟩ j) ∧
      s1.eventQueue = [Event.make 10 7 StepDirection.StepForward] ∧ s1.bufferSize = 1 :=
  C5_schedPwm_active_only_overwrites
    ⟨Function.update (fun _ => PwmInfo.zero) 7 ⟨3, 4⟩,
      [Event.make 10 7 StepDirection.StepForward], 1⟩ 7 ⟨5, 6⟩ 42
    (Or.inl (by simp [Function.update]))

/-- C6: let channel `id` be active and let `e` be the only queued event of channel `id`
(the queue is `pre ++ e :: post` with no event of `id` in `pre` or `post`).  Then
`schedPwm(id, {0, 0})` completes and leaves the queue as it is; the following
`nextEvent` calls return events of other channels until call number
`pre.length`, which finds `e` at the front, returns it and leaves exactly the
events that were behind it: no successor is inserted and no event of channel
`id` remains. -/
theorem C6_disabled_channel_fires_once (s : Scheduler) (id : AxisIdType) (e : Event)
    (pre post : List Event) (now : Nat)
    (hact : (s.pwmInfo id).nsHigh ≠ 0 ∨ (s.pwmInfo id).nsLow ≠ 0)
    (hq : s.eventQueue = pre ++ e :: post) (he : e.stepperId = id)
    (hpre : ∀ x ∈ pre, x.stepperId ≠ id) (hpost : ∀ x ∈ post, x.stepperId ≠ id) :
    ∃ s1 : Scheduler, s.schedPwm id ⟨0, 0⟩ now = some s1 ∧
      s1.eventQueue = s.eventQueue ∧
      (∀ k, k < pre.length → (s1.nthEvent k).stepperId ≠ id) ∧
      s1.nthEvent pre.length = e ∧
      ∃ rest : List Event, (s1.drain pre.length).eventQueue = e :: rest ∧
        ((s1.drain pre.length).nextEvent).2.eventQueue = rest ∧
        ∀ x ∈ rest, x.stepperId ≠ id := by
  refine ⟨⟨Function.update s.pwmInfo id ⟨0, 0⟩, s.eventQueue, s.bufferSize⟩, ?_, rfl, ?_, ?_, ?_⟩
  · rw [Scheduler.schedPwm, if_pos hact]
  · intro k hk
    have hget : (pre ++ e :: post)[k]? = some (pre.get ⟨k, hk⟩) := by
      rw [List.getElem?_append_left hk]
      simp
    rw [nthEvent_of_get k _ _ (by simpa [hq] using hget)]
    exact hpre _ (List.get_mem pre k hk)
  · apply nthEvent_of_get
    show s.eventQueue[pre.length]? = some e
    rw [hq, List.getElem?_append_right (Nat.le_refl _)]
    simp
  · obtain ⟨htab, _, rest, hrest, hno⟩ :=
      drain_prefix id pre ⟨Function.update s.pwmInfo id ⟨0, 0⟩, s.eventQueue, s.bufferSize⟩
        e post hq hpre hpost
    refine ⟨rest, hrest, ?_, hno⟩
    have hoff : (Function.update s.pwmInfo id ⟨0, 0⟩ e.stepperId).isNonNull = false := by
      rw [he, Function.update_same]
      rfl
    rw [nextEvent_cons _ e rest hrest, htab]
    simp only [hoff]
    rfl

/-- Witness for C6: channels 2 and 7 are running, the queue holds an event of channel
2, then the only event of channel 7, then an event of the idle channel 3. -/
theorem C6_disabled_channel_fires_once_witness :
    ∃ s1 : Scheduler,
      (⟨Function.update (Function.update (fun _ => PwmInfo.zero) 7 ⟨3, 4⟩) 2 ⟨5, 0⟩,
        [Event.make 1 2 StepDirection.StepForward] ++
          Event.make 10 7 StepDirection.StepForward :: [Event.make 11 3 StepDirection.StepBackward],
        8⟩ : Scheduler).schedPwm 7 ⟨0, 0⟩ 42 = some s1 ∧
      s1.eventQueue =
        [Event.make 1 2 StepDirection.StepForward] ++
          Event.make 10 7 StepDirection.StepForward :: [Event.make 11 3 StepDirection.StepBackward] ∧
      (∀ k, k < [Event.make 1 2 StepDirection.StepForward].length →
        (s1.nthEvent k).stepperId ≠ 7) ∧
      s1.nthEvent [Event.make 1 2 StepDirection.StepForward].length =
        Event.make 10 7 StepDirection.StepForward ∧
      ∃ rest : List Event,
        (s1.drain [Event.make 1 2 StepDirection.StepForward].length).eventQueue =
          Event.make 10 7 StepDirection.StepForward :: rest ∧
        ((s1.drain [Event.make 1 2 StepDirection.StepForward].length).nextEvent).2.eventQueue
          = rest ∧
        ∀ x ∈ rest, x.stepperId ≠ 7 :=
  C6_disabled_channel_fires_once
    ⟨Function.update (Function.update (fun _ => PwmInfo.zero) 7 ⟨3, 4⟩) 2 ⟨5, 0⟩,
      [Event.make 1 2 StepDirection.StepForward] ++
        Event.make 10 7 StepDirection.StepForward :: [Event.make 11 3 StepDirection.StepBackward],
      8⟩
    7 (Event.make 10 7 StepDirection.StepForward) [Event.make 1 2 StepDirection.StepForward]
    [Event.make 11 3 StepDirection.StepBackward] 42
    (Or.inl (by simp [Function.update])) rfl rfl (by decide) (by decide)

/-- C7 (counterexample): from a freshly constructed scheduler, two `queue` calls
followed by `setBufferSize(1)` reach a state with two queued events and
capacity 1, so the number of queued events exceeds the capacity. -/
theorem C7_setBufferSize_shrinks_below_size :
    ∃ s : Scheduler,
      Scheduler.run Scheduler.construct
        [Op.queue (Event.make 10 1 StepDirection.StepForward),
         Op.queue (Event.make 20 1 StepDirection.StepBackward),
         Op.setBufferSize 1] = some s ∧
      s.bufferSize < s.eventQueue.length :=
  ⟨_, rfl, by decide⟩

/-- C7 (amended): in every state reached from a freshly constructed scheduler by a
sequence of completed `queue`, `nextEvent`, `schedPwm` and `setBufferSize` calls
in which no `setBufferSize` call sets the capacity below the number of events
queued at that moment, the number of queued events is at most the capacity. -/
theorem C7_size_le_capacity_when_not_shrunk (ops : List Op) (s : Scheduler)
    (hrun : Scheduler.run Scheduler.construct ops = some s)
    (hresp : Scheduler.construct.respectsSize ops = true) :
    0 ≤ s.eventQueue.length ∧ s.eventQueue.length ≤ s.bufferSize :=
  ⟨Nat.zero_le _,
    run_preserves_size ops Scheduler.construct s (by decide) hrun hresp⟩

/-- Witness for C7 (amended): a PWM seed, a queued event, a capacity change to 2 while
two events are queued, and one pop. -/
theorem C7_size_le_capacity_when_not_shrunk_witness :
    ∃ s : Scheduler,
      Scheduler.run Scheduler.construct
        [Op.schedPwm 7 ⟨3, 4⟩ 0, Op.queue (Event.make 20 1 StepDirection.StepBackward),
         Op.setBufferSize 2, Op.nextEvent] = some s ∧
      0 ≤ s.eventQueue.length ∧ s.eventQueue.length ≤ s.bufferSize :=
  ⟨_, rfl, C7_size_le_capacity_when_not_shrunk
    [Op.schedPwm 7 ⟨3, 4⟩ 0, Op.queue (Event.make 20 1 StepDirection.StepBackward),
      Op.setBufferSize 2, Op.nextEvent] _ rfl (by decide)⟩

/-- C8: on a non-empty queue with front event `evt`, `nextEvent` leaves the number of
queued events unchanged when the channel of `evt` has an active `PwmInfo` and
decreases it by exactly one when that `PwmInfo` is `{0, 0}`.  When moreover the
queue is full, a `queue` call does not complete, and after one `nextEvent` that
pops a non-PWM event the size is `bufferSize - 1` and the `queue` call
completes, appending its event. -/
theorem C8_nextEvent_size_and_admission (s : Scheduler) (evt : Event) (rest : List Event)
    (e : Event) (hq : s.eventQueue = evt :: rest) :
    (((s.pwmInfo evt.stepperId).nsHigh ≠ 0 ∨ (s.pwmInfo evt.stepperId).nsLow ≠ 0) →
      (s.nextEvent).2.eventQueue.length = s.eventQueue.length) ∧
    (s.pwmInfo evt.stepperId = ⟨0, 0⟩ →
      (s.nextEvent).2.eventQueue.length + 1 = s.eventQueue.length) ∧
    (s.eventQueue.length = s.bufferSize →
      s.queue e = none ∧
      (s.pwmInfo evt.stepperId = ⟨0, 0⟩ →
        (s.nextEvent).2.eventQueue.length = s.bufferSize - 1 ∧
        ∃ s2 : Scheduler, (s.nextEvent).2.queue e = some s2 ∧
          s2.eventQueue = rest ++ [e])) := by
  obtain ⟨_, _, hbuf, tail, htail, _, hlen⟩ := nextEvent_shape s evt rest hq
  have hpwm : ((s.pwmInfo evt.stepperId).nsHigh ≠ 0 ∨ (s.pwmInfo evt.stepperId).nsLow ≠ 0) →
      (s.nextEvent).2.eventQueue.length = s.eventQueue.length := by
    intro hact
    rw [if_pos ((isNonNull_iff _).2 hact)] at hlen
    rw [htail, hq, List.length_append, hlen, List.length_cons]
  have hzero : s.pwmInfo evt.stepperId = ⟨0, 0⟩ → (s.nextEvent).2.eventQueue = rest := by
    intro hz
    have hoff : ¬ ((s.pwmInfo evt.stepperId).isNonNull = true) := by
      rw [hz]
      decide
    rw [if_neg hoff] at hlen
    rw [htail, List.length_eq_zero.1 hlen, List.append_nil]
  refine ⟨hpwm, ?_, ?_⟩
  · intro hz
    rw [hzero hz, hq, List.length_cons]
  · intro hfull
    refine ⟨queue_of_ge s e (Nat.le_of_eq hfull.symm), ?_⟩
    intro hz
    have hsz : (s.nextEvent).2.eventQueue.length = s.bufferSize - 1 := by
      rw [hzero hz, ← hfull, hq, List.length_cons]
      omega
    refine ⟨hsz, _, queue_of_lt _ e ?_, ?_⟩
    · rw [hsz, hbuf]
      rw [hq, List.length_cons] at hfull
      omega
    · show (s.nextEvent).2.eventQueue ++ [e] = rest ++ [e]
      rw [hzero hz]

/-- Witness for C8: capacity 4 with four queued non-PWM events; a fifth `queue` call
does not complete, one `nextEvent` leaves three events, and the fifth `queue`
call then completes. -/
theorem C8_nextEvent_size_and_admission_witness :
    (⟨fun _ => PwmInfo.zero,
        [Event.make 10 1 StepDirection.StepForward, Event.make 20 1 StepDirection.StepBackward,
         Event.make 30 2 StepDirection.StepForward, Event.make 40 2 StepDirection.StepBackward],
        4⟩ : Scheduler).queue (Event.make 50 3 StepDirection.StepForward) = none ∧
    ((⟨fun _ => PwmInfo.zero,
        [Event.make 10 1 StepDirection.StepForward, Event.make 20 1 StepDirection.StepBackward,
         Event.make 30 2 StepDirection.StepForward, Event.make 40 2 StepDirection.StepBackward],
        4⟩ : Scheduler).nextEvent).2.eventQueue.length = 4 - 1 :=
  ⟨((C8_nextEvent_size_and_admission
      ⟨fun _ => PwmInfo.zero,
        [Event.make 10 1 StepDirection.StepForward, Event.make 20 1 StepDirection.StepBackward,
         Event.make 30 2 StepDirection.StepForward, Event.make 40 2 StepDirection.StepBackward],
        4⟩
      (Event.make 10 1 StepDirection.StepForward) _
      (Event.make 50 3 StepDirection.StepForward) rfl).2.2 rfl).1,
   (((C8_nextEvent_size_and_admission
      ⟨fun _ => PwmInfo.zero,
        [Event.make 10 1 StepDirection.StepForward, Event.make 20 1 StepDirection.StepBackward,
         Event.make 30 2 StepDirection.StepForward, Event.make 40 2 StepDirection.StepBackward],
        4⟩
      (Event.make 10 1 StepDirection.StepForward) _
      (Event.make 50 3 StepDirection.StepForward) rfl).2.2 rfl).2 rfl).1⟩

/-- C10 (counterexample): `queue` called with the null event on a freshly constructed
scheduler inserts it, and the next `nextEvent` call returns the null event from
a non-empty queue. -/
theorem C10_queue_inserts_null_event :
    (Scheduler.construct.queue Event.null).map
        (fun s => (s.eventQueue, (s.nextEvent).1, ((s.nextEvent).1).isNull))
      = some ([Event.null], Event.null, true) := by
  decide

/-- C10 (amended): `queue` makes no null check.  When the queue is below capacity,
`queue(evt)` completes for every event `evt`, the null event included: `evt` is
appended at the back of the queue, the table and the capacity are unchanged, and
the later `nextEvent` call that reaches it (call number `|H|` counted from 0)
returns `evt`. -/
theorem C10_queue_appends_any_event (s : Scheduler) (evt : Event)
    (hcap : s.eventQueue.length < s.bufferSize) :
    ∃ s1 : Scheduler, s.queue evt = some s1 ∧
      s1.eventQueue = s.eventQueue ++ [evt] ∧ s1.pwmInfo = s.pwmInfo ∧
      s1.bufferSize = s.bufferSize ∧ s1.nthEvent s.eventQueue.length = evt := by
  refine ⟨_, queue_of_lt s evt hcap, rfl, rfl, rfl, ?_⟩
  apply nthEvent_of_get
  show (s.eventQueue ++ [evt])[s.eventQueue.length]? = some evt
  rw [List.getElem?_append_right (Nat.le_refl _)]
  simp

/-- Witness for C10 (amended): the null event queued behind one real event with
capacity 2. -/
theorem C10_queue_appends_any_event_witness :
    ∃ s1 : Scheduler,
      (⟨fun _ => PwmInfo.zero, [Event.make 10 1 StepDirection.StepForward], 2⟩ :
        Scheduler).queue Event.null = some s1 ∧
      s1.eventQueue = [Event.make 10 1 StepDirection.StepForward] ++ [Event.null] ∧
      s1.pwmInfo = (fun _ => PwmInfo.zero) ∧ s1.bufferSize = 2 ∧
      s1.nthEvent [Event.make 10 1 StepDirection.StepForward].length = Event.null :=
  C10_queue_appends_any_event
    ⟨fun _ => PwmInfo.zero, [Event.make 10 1 StepDirection.StepForward], 2⟩ Event.null
    (by decide)

/-- C11: on an empty queue a `nextEvent` call whose wait times out returns the null
event, for which `isNull` holds, and leaves the queue, the PWM table and the
capacity unchanged. -/
theorem C11_nextEvent_timeout_returns_null (s : Scheduler) (hq : s.eventQueue = []) :
    (s.nextEvent).1 = Event.null ∧ ((s.nextEvent).1).isNull = true ∧
    (s.nextEvent).2.eventQueue = s.eventQueue ∧ (s.nextEvent).2.pwmInfo = s.pwmInfo ∧
    (s.nextEvent).2.bufferSize = s.bufferSize := by
  rw [nextEvent_nil s hq]
  exact ⟨rfl, rfl, rfl, rfl, rfl⟩

/-- Witness for C11: an empty queue with channel 7 active and capacity 4. -/
theorem C11_nextEvent_timeout_returns_null_witness :
    ((⟨Function.update (fun _ => PwmInfo.zero) 7 ⟨3, 4⟩, [], 4⟩ : Scheduler).nextEvent).1
      = Event.null :=
  (C11_nextEvent_timeout_returns_null
    ⟨Function.update (fun _ => PwmInfo.zero) 7 ⟨3, 4⟩, [], 4⟩ rfl).1

/-- C12 (evaluation at the failing input): after queueing events at 5 ms and then at
2 ms into a freshly constructed scheduler, the queue holds the times
`[5000000, 2000000]` and `lastSchedTime` returns 2000000, the time of the back
element, not the largest queued time 5000000. -/
theorem C12_lastSchedTime_returns_back_not_latest :
    (Scheduler.run Scheduler.construct
        [Op.queue (Event.make 5000000 1 StepDirection.StepForward),
         Op.queue (Event.make 2000000 2 StepDirection.StepForward)]).map
      (fun s => (s.eventQueue.map Event.time, s.lastSchedTime 7))
      = some ([5000000, 2000000], 2000000) := by
  decide

theorem drain_single_forward (s : Scheduler) (id : AxisIdType) (h t0 : Nat)
    (hh : h ≠ 0) (htab : s.pwmInfo id = ⟨h, 0⟩)
    (hq : s.eventQueue = [Event.make t0 id StepDirection.StepForward]) (n : Nat) :
    s.drain n = ⟨s.pwmInfo, [Event.make (t0 + n * h) id StepDirection.StepForward],
      s.bufferSize⟩ := by
  induction n with
  | zero =>
    cases s
    simp only [Scheduler.drain] at *
    simp [hq]
  | succ k ih =>
    rw [drain_succ_last, ih, nextEvent_cons _ _ [] rfl]
    have hnn : (⟨h, 0⟩ : PwmInfo).isNonNull = true := by simp [PwmInfo.isNonNull, hh]
    simp only [Event.make, htab, hnn, if_true, List.nil_append]
    simp
    ring

/-- C14: with table entry `{h, 0}` for channel `id`, `h ≠ 0`, and a queue holding the
single event `(t0, id, Forward)`, call number `n` of successive `nextEvent`
calls returns `(t0 + n * h, id, Forward)` for every `n`, and the table entry is
still `{h, 0}` afterwards, so the stream never ends by itself. -/
theorem C14_forward_only_stream (s : Scheduler) (id : AxisIdType) (h t0 : Nat)
    (hh : h ≠ 0) (htab : s.pwmInfo id = ⟨h, 0⟩)
    (hq : s.eventQueue = [Event.make t0 id StepDirection.StepForward]) (n : Nat) :
    s.nthEvent n = Event.make (t0 + n * h) id StepDirection.StepForward ∧
    (s.drain (n + 1)).pwmInfo id = ⟨h, 0⟩ ∧
    (s.drain (n + 1)).eventQueue =
      [Event.make (t0 + (n + 1) * h) id StepDirection.StepForward] := by
  refine ⟨?_, ?_, ?_⟩
  · unfold Scheduler.nthEvent
    rw [drain_single_forward s id h t0 hh htab hq n, nextEvent_cons _ _ [] rfl]
    split_ifs <;> rfl
  · rw [drain_single_forward s id h t0 hh htab hq (n + 1)]
    exact htab
  · rw [drain_single_forward s id h t0 hh htab hq (n + 1)]

/-- Witness for C14: channel 7 with `{2000000, 0}` seeded Forward at time 50; call
number 3 returns the Forward event at `50 + 3 * 2000000`. -/
theorem C14_forward_only_stream_witness :
    (⟨Function.update (fun _ => PwmInfo.zero) 7 ⟨2000000, 0⟩,
        [Event.make 50 7 StepDirection.StepForward], 512⟩ : Scheduler).nthEvent 3 =
      Event.make (50 + 3 * 2000000) 7 StepDirection.StepForward :=
  (C14_forward_only_stream
    ⟨Function.update (fun _ => PwmInfo.zero) 7 ⟨2000000, 0⟩,
      [Event.make 50 7 StepDirection.StepForward], 512⟩ 7 2000000 50
    (by decide) (by simp [Function.update]) rfl 3).1

/-- C17: `setBufferSize(n)` followed by `setBufferSize(m)` yields the same state as
`setBufferSize(m)` alone, `getBufferSize` then returns `m`, and a freshly
constructed scheduler reports capacity 512. -/
theorem C17_setBufferSize_last_write_wins (s : Scheduler) (n m : Nat) :
    (s.setBufferSize n).setBufferSize m = s.setBufferSize m ∧
    ((s.setBufferSize n).setBufferSize m).getBufferSize = m ∧
    Scheduler.construct.getBufferSize = 512 :=
  ⟨rfl, rfl, rfl⟩

/-- C18: for every queue state and every event, the comparison made by
`orderedInsert` (between the time of `evt` and the time of the back element
after `push_back(evt)`) is false, so the `push_heap` branch is never taken and
`orderedInsert(evt)` is the same as appending `evt` at the back: the previously
queued events keep their positions. -/
theorem C18_orderedInsert_is_append (s : Scheduler) (evt : Event) :
    timespecLt evt.time ((s.eventQueue ++ [evt]).getLast (by simp)).time = false ∧
    s.orderedInsert evt = s.appendAtBack evt ∧
    (s.orderedInsert evt).eventQueue = s.eventQueue ++ [evt] ∧
    (s.orderedInsert evt).eventQueue.take s.eventQueue.length = s.eventQueue := by
  refine ⟨?_, ?_, ?_, ?_⟩
  · simp [timespecLt_irrefl]
  · rw [orderedInsert_eq]
    rfl
  · rw [orderedInsert_eq]
  · rw [orderedInsert_eq]
    simp

theorem waitForEvent_due (env : LoopEnv) (evt : Event) : ∀ (fuel : Nat) (st st1 : LoopState)
    (now : Nat), waitForEvent env evt fuel st = some (now, st1) →
    evt.isTime now = true ∧ st1.delivered = st.delivered := by
  intro fuel
  induction fuel with
  | zero =>
    intro st st1 now h
    simp [waitForEvent] at h
  | succ k ih =>
    intro st st1 now h
    unfold waitForEvent at h
    by_cases hdue : evt.isTime (env.clock st.clockReads) = true
    · rw [if_pos hdue] at h
      simp only [Option.some.injEq, Prod.mk.injEq] at h
      obtain ⟨h1, h2⟩ := h
      subst h1
      subst h2
      exact ⟨hdue, rfl⟩
    · rw [if_neg hdue] at h
      have hrec := ih _ st1 now h
      exact hrec

/-- The inner loop of `eventLoop` ends as soon as a clock reading has reached the
time of the event, provided the iteration bound allows that many readings. -/
theorem waitForEvent_isSome (env : LoopEnv) (evt : Event) : ∀ (k fuel : Nat) (st : LoopState),
    k < fuel → evt.time ≤ env.clock (st.clockReads + k) →
    (waitForEvent env evt fuel st).isSome = true := by
  intro k
  induction k with
  | zero =>
    intro fuel st hk hclock
    obtain ⟨f, rfl⟩ : ∃ f, fuel = f + 1 := ⟨fuel - 1, by omega⟩
    unfold waitForEvent
    rw [if_pos (by simpa [Event.isTime] using hclock)]
    rfl
  | succ j ih =>
    intro fuel st hk hclock
    obtain ⟨f, rfl⟩ : ∃ f, fuel = f + 1 := ⟨fuel - 1, by omega⟩
    unfold waitForEvent
    by_cases hdue : evt.isTime (env.clock st.clockReads) = true
    · rw [if_pos hdue]
      rfl
    · rw [if_neg hdue]
      apply ih f _ (by omega)
      show evt.time ≤ env.clock (st.clockReads + 1 + j)
      rw [Nat.add_assoc, Nat.add_comm 1 j]
      exact hclock

theorem eventLoop_deliveries (env : LoopEnv) (fuel : Nat) (P : Delivery → Prop)
    (hP : ∀ d : Delivery, d.evt = (d.source.nextEvent).1 → d.evt.isNull = false →
      d.evt.isTime d.now = true → P d) :
    ∀ (passes : Nat) (st st1 : LoopState), eventLoop env fuel passes st = some st1 →
      (∀ d ∈ st.delivered, P d) → ∀ d ∈ st1.delivered, P d := by
  intro passes
  induction passes with
  | zero =>
    intro st st1 h hst
    simp only [eventLoop, Option.some.injEq] at h
    subst h
    exact hst
  | succ n ih =>
    intro st st1 h hst
    unfold eventLoop at h
    by_cases hnull : ((env.onWait st.waitCalls st.sched).2.nextEvent).1.isNull = true
    · rw [if_pos hnull] at h
      exact ih _ st1 h hst
    · rw [if_neg hnull] at h
      cases hw : waitForEvent env ((env.onWait st.waitCalls st.sched).2.nextEvent).1 fuel
          ⟨((env.onWait st.waitCalls st.sched).2.nextEvent).2, st.clockReads, st.waitCalls + 1,
            st.delivered⟩ with
      | none => simp [hw] at h
      | some r =>
        obtain ⟨now, st2⟩ := r
        simp only [hw] at h
        obtain ⟨hdue, hdel⟩ := waitForEvent_due env _ fuel _ st2 now hw
        refine ih _ st1 h ?_
        intro d hd
        rcases List.mem_append.1 hd with hd | hd
        · rw [hdel] at hd
          exact hst d hd
        · rw [List.mem_singleton] at hd
          subst hd
          exact hP _ rfl (by simpa using hnull) hdue

/-- C13: in `eventLoop`, whatever the `onWait` and `onEvent` callbacks and the clock do,
every call `onEvent(evt)` is made with the event that `nextEvent` returned in
that pass, this event is not null, and the evaluation of `evt.isTime()` just
before the call was true, that is the clock reading had reached `evt.time`. -/
theorem C13_onEvent_only_when_due (env : LoopEnv) (fuel passes : Nat) (s : Scheduler)
    (c w : Nat) (st1 : LoopState)
    (hloop : eventLoop env fuel passes ⟨s, c, w, []⟩ = some st1) :
    ∀ d ∈ st1.delivered, d.evt = (d.source.nextEvent).1 ∧ d.evt.isNull = false ∧
      d.evt.isTime d.now = true ∧ d.evt.time ≤ d.now := by
  refine eventLoop_deliveries env fuel _ ?_ passes _ st1 hloop (by simp)
  intro d h1 h2 h3
  exact ⟨h1, h2, h3, by simpa [Event.isTime] using h3⟩

/-- Witness for C13: the clock reads 0, 10, 20, 30, ..., `onWait` always returns
false, and one event at time 25 is queued; it is handed to `onEvent` at the
clock reading 30. -/
theorem C13_onEvent_only_when_due_witness :
    ∃ st1 : LoopState,
      eventLoop ⟨fun k => 10 * k, fun _ s => (false, s), fun _ s => s⟩ 10 2
        ⟨⟨fun _ => PwmInfo.zero, [Event.make 25 1 StepDirection.StepForward], 4⟩, 0, 0, []⟩
        = some st1 ∧
      st1.delivered.map (fun d => (d.evt, d.now)) =
        [(Event.make 25 1 StepDirection.StepForward, 30)] ∧
      ∀ d ∈ st1.delivered, d.evt = (d.source.nextEvent).1 ∧ d.evt.isNull = false ∧
        d.evt.isTime d.now = true ∧ d.evt.time ≤ d.now :=
  ⟨_, rfl, rfl,
    C13_onEvent_only_when_due ⟨fun k => 10 * k, fun _ s => (false, s), fun _ s => s⟩ 10 2
      ⟨fun _ => PwmInfo.zero, [Event.make 25 1 StepDirection.StepForward], 4⟩ 0 0 _ rfl⟩

theorem foldl_count_eq {α : Type} (p : α → Bool) : ∀ (l : List α) (r : Nat),
    l.foldl (fun r i => if p i then r + 1 else r) r = r + l.countP p := by
  intro l
  induction l with
  | nil =>
    intro r
    simp
  | cons x xs ih =>
    intro r
    simp only [List.foldl_cons, ih, List.countP_cons]
    by_cases hx : p x = true
    · simp [hx]
      omega
    · simp [hx]

theorem card_filter_univ_eq_countP (n : Nat) (P : Fin n → Prop) [DecidablePred P] :
    (Finset.univ.filter P).card = (List.finRange n).countP (fun i => decide (P i)) := by
  rw [List.countP_eq_length_filter,
    ← List.toFinset_card_of_nodup ((List.nodup_finRange n).filter _)]
  congr 1
  ext i
  simp

theorem numActivePwmChannels_eq_countP (s : Scheduler) :
    s.numActivePwmChannels = (List.finRange 256).countP (fun i => (s.pwmInfo i).isNonNull) := by
  unfold Scheduler.numActivePwmChannels
  rw [foldl_count_eq (fun i => (s.pwmInfo i).isNonNull) (List.finRange 256) 0]
  simp

/-- C15: for every PWM table, `numActivePwmChannels` returns exactly the number of
indices whose entry has `nsHigh ≠ 0` or `nsLow ≠ 0`; it never exceeds 256 and
it is 0 on a freshly constructed scheduler. -/
theorem C15_numActivePwmChannels_counts_active (s : Scheduler) :
    s.numActivePwmChannels =
      (Finset.univ.filter (fun i : AxisIdType =>
        (s.pwmInfo i).nsHigh ≠ 0 ∨ (s.pwmInfo i).nsLow ≠ 0)).card ∧
    s.numActivePwmChannels ≤ 256 ∧
    Scheduler.construct.numActivePwmChannels = 0 := by
  refine ⟨?_, ?_, ?_⟩
  · rw [numActivePwmChannels_eq_countP, card_filter_univ_eq_countP]
    congr 1
    funext i
    rw [Bool.eq_iff_iff, isNonNull_iff]
    simp
  · rw [numActivePwmChannels_eq_countP]
    exact (List.countP_le_length _).trans (by simp)
  · rw [numActivePwmChannels_eq_countP]
    simp [Scheduler.construct, PwmInfo.zero, PwmInfo.isNonNull]

theorem roundTiesEven_abs_sub_le (q : ℚ) : |(roundTiesEven q : ℚ) - q| ≤ 1 / 2 := by
  have h1 := Int.floor_le q
  have h2 := Int.lt_floor_add_one q
  unfold roundTiesEven
  rw [abs_le]
  split_ifs with ha hb hc
  · constructor <;> linarith
  · push_cast
    constructor <;> linarith
  · constructor <;> linarith
  · push_cast
    constructor <;> linarith

theorem roundTiesEven_nonneg (q : ℚ) (hq : 0 ≤ q) : 0 ≤ roundTiesEven q := by
  have h0 : (0 : ℤ) ≤ ⌊q⌋ := Int.floor_nonneg.2 hq
  unfold roundTiesEven
  split_ifs <;> omega

theorem roundTiesEven_nonpos (q : ℚ) (hq : q ≤ 0) : roundTiesEven q ≤ 0 := by
  rcases eq_or_lt_of_le hq with h | h
  · subst h
    simp [roundTiesEven]
  · have h0 : ⌊q⌋ ≤ -1 := Int.floor_le_neg_one_iff.2 h
    unfold roundTiesEven
    split_ifs <;> omega

theorem roundTiesEven_intCast (z : ℤ) : roundTiesEven (z : ℚ) = z := by
  simp [roundTiesEven]

theorem binary32Ulp_pos (x : ℚ) : 0 < binary32Ulp x := by
  unfold binary32Ulp
  positivity

theorem roundBinary32_nonneg (x : ℚ) (hx : 0 ≤ x) : 0 ≤ roundBinary32 x := by
  unfold roundBinary32
  have h := roundTiesEven_nonneg (x / binary32Ulp x) (div_nonneg hx (binary32Ulp_pos x).le)
  exact mul_nonneg (by exact_mod_cast h) (binary32Ulp_pos x).le

theorem roundBinary32_nonpos (x : ℚ) (hx : x ≤ 0) : roundBinary32 x ≤ 0 := by
  unfold roundBinary32
  have h := roundTiesEven_nonpos (x / binary32Ulp x)
    (div_nonpos_of_nonpos_of_nonneg hx (binary32Ulp_pos x).le)
  exact mul_nonpos_of_nonpos_of_nonneg (by exact_mod_cast h) (binary32Ulp_pos x).le

theorem binary32Ulp_le (x : ℚ) (hx0 : x ≠ 0) :
    binary32Ulp x / 2 ≤ |x| / 2 ^ 24 + 1 / 2 ^ 150 := by
  unfold binary32Ulp
  rcases le_total (Int.log 2 |x|) (-126) with h | h
  · rw [max_eq_right h]
    have : (2 : ℚ) ^ ((-126 : ℤ) - 23) / 2 = 1 / 2 ^ 150 := by norm_num [zpow_neg]
    rw [this]
    have : 0 ≤ |x| / 2 ^ 24 := by positivity
    linarith
  · rw [max_eq_left h]
    have hx : 0 < |x| := abs_pos.2 hx0
    have hle := Int.zpow_log_le_self (b := 2) (by norm_num) hx
    have hsplit : (2 : ℚ) ^ (Int.log 2 |x| - 23) = 2 ^ (Int.log 2 |x|) / 2 ^ 23 := by
      rw [zpow_sub₀ (by norm_num)]
      norm_num
    rw [hsplit]
    have hpos : (0 : ℚ) < 1 / 2 ^ 150 := by positivity
    have hcast : ((2 : ℕ) : ℚ) ^ Int.log 2 |x| = (2 : ℚ) ^ Int.log 2 |x| := by norm_num
    rw [hcast] at hle
    have : (2 : ℚ) ^ Int.log 2 |x| / 2 ^ 23 / 2 ≤ |x| / 2 ^ 24 := by
      rw [div_div, div_le_div_iff₀ (by positivity) (by positivity)]
      nlinarith
    linarith

theorem roundBinary32_abs_sub_le (x : ℚ) :
    |roundBinary32 x - x| ≤ |x| / 2 ^ 24 + 1 / 2 ^ 150 := by
  rcases eq_or_ne x 0 with hx0 | hx0
  · subst hx0
    simp [roundBinary32, roundTiesEven]
  have hu := binary32Ulp_pos x
  have h := roundTiesEven_abs_sub_le (x / binary32Ulp x)
  have heq : roundBinary32 x - x =
      ((roundTiesEven (x / binary32Ulp x) : ℚ) - x / binary32Ulp x) * binary32Ulp x := by
    unfold roundBinary32
    field_simp
  rw [heq, abs_mul, abs_of_pos hu]
  calc |(roundTiesEven (x / binary32Ulp x) : ℚ) - x / binary32Ulp x| * binary32Ulp x
      ≤ 1 / 2 * binary32Ulp x := mul_le_mul_of_nonneg_right h hu.le
    _ = binary32Ulp x / 2 := by ring
    _ ≤ _ := binary32Ulp_le x hx0

theorem roundBinary32_of_representable (m k : ℤ) (hm : |m| < 2 ^ 24) (hk : -149 ≤ k) :
    roundBinary32 ((m : ℚ) * 2 ^ k) = (m : ℚ) * 2 ^ k := by
  rcases eq_or_ne m 0 with h0 | h0
  · subst h0
    simp [roundBinary32, roundTiesEven]
  · have hmq : (0 : ℚ) < |(m : ℚ)| := abs_pos.2 (by exact_mod_cast h0)
    have hx : 0 < |(m : ℚ) * 2 ^ k| := by
      rw [abs_mul]
      exact mul_pos hmq (abs_pos.2 (by positivity))
    have hlt : |(m : ℚ) * 2 ^ k| < ((2 : ℕ) : ℚ) ^ (k + 24) := by
      rw [abs_mul, abs_of_pos (by positivity : (0 : ℚ) < 2 ^ k), zpow_add₀ (by norm_num),
        mul_comm]
      have hm' : |(m : ℚ)| < 2 ^ 24 := by exact_mod_cast hm
      have : ((2 : ℕ) : ℚ) ^ (24 : ℤ) = 2 ^ 24 := by norm_num
      rw [this]
      have h2 : ((2 : ℕ) : ℚ) ^ k = 2 ^ k := by norm_num
      rw [h2]
      exact mul_lt_mul_of_pos_left hm' (by positivity)
    have hlog : Int.log 2 |(m : ℚ) * 2 ^ k| < k + 24 :=
      (Int.lt_zpow_iff_log_lt (by norm_num) hx).1 hlt
    obtain ⟨n, hn⟩ : ∃ n : ℕ, (n : ℤ) = k - (max (Int.log 2 |(m : ℚ) * 2 ^ k|) (-126) - 23) := by
      refine ⟨(k - (max (Int.log 2 |(m : ℚ) * 2 ^ k|) (-126) - 23)).toNat, ?_⟩
      rw [Int.toNat_of_nonneg]
      rcases le_total (Int.log 2 |(m : ℚ) * 2 ^ k|) (-126) with h | h
      · rw [max_eq_right h]
        omega
      · rw [max_eq_left h]
        omega
    have hdiv : (m : ℚ) * 2 ^ k / binary32Ulp ((m : ℚ) * 2 ^ k) = ((m * 2 ^ n : ℤ) : ℚ) := by
      unfold binary32Ulp
      rw [mul_div_assoc, ← zpow_sub₀ (by norm_num), ← hn]
      push_cast
      rw [zpow_natCast]
    unfold roundBinary32
    rw [hdiv, roundTiesEven_intCast, ← hdiv]
    field_simp [(binary32Ulp_pos _).ne']

theorem truncToInt_of_nonneg (x : ℚ) (hx : 0 ≤ x) :
    ((max 0 (truncToInt x)).toNat : ℚ) ≤ x ∧ x < ((max 0 (truncToInt x)).toNat : ℚ) + 1 := by
  have hf : (0 : Int) ≤ ⌊x⌋ := Int.floor_nonneg.2 hx
  have hc : ((max 0 (truncToInt x)).toNat : ℚ) = ((⌊x⌋ : Int) : ℚ) := by
    rw [truncToInt, if_pos hx, max_eq_right hf]
    have hnat := Int.toNat_of_nonneg hf
    exact_mod_cast congrArg (fun z : Int => (z : ℚ)) hnat
  rw [hc]
  exact ⟨Int.floor_le x, Int.lt_floor_add_one x⟩

theorem truncToInt_of_nonpos (x : ℚ) (hx : x ≤ 0) : (max 0 (truncToInt x)).toNat = 0 := by
  have h : truncToInt x ≤ 0 := by
    unfold truncToInt
    split_ifs with h0
    · have hzero : x = 0 := le_antisymm hx h0
      simp [hzero]
    · exact Int.ceil_le.2 (by simpa using hx)
  rw [max_eq_left h]
  rfl

theorem roundBinary32_bounds (y : ℚ) (hy : 0 ≤ y) :
    y - y / 2 ^ 24 - 1 / 2 ^ 150 ≤ roundBinary32 y ∧
    roundBinary32 y ≤ y + y / 2 ^ 24 + 1 / 2 ^ 150 ∧ 0 ≤ roundBinary32 y := by
  have h := roundBinary32_abs_sub_le y
  rw [abs_of_nonneg hy, abs_le] at h
  exact ⟨by linarith [h.1], by linarith [h.2], roundBinary32_nonneg y hy⟩

theorem roundBinary32_eq_self (x : ℚ) (m k : ℤ) (hx : x = (m : ℚ) * 2 ^ k)
    (hm : |m| < 2 ^ 24) (hk : -149 ≤ k) : roundBinary32 x = x := by
  rw [hx]
  exact roundBinary32_of_representable m k hm hk

theorem binary32Ulp_of_binade (x : ℚ) (e : ℤ) (he : -126 ≤ e) (h1 : 2 ^ e ≤ |x|)
    (h2 : |x| < 2 ^ (e + 1)) : binary32Ulp x = 2 ^ (e - 23) := by
  have hx : 0 < |x| := lt_of_lt_of_le (by positivity) h1
  have hlo : e ≤ Int.log 2 |x| :=
    (Int.zpow_le_iff_le_log (by norm_num) hx).1 (by simpa using h1)
  have hhi : Int.log 2 |x| < e + 1 :=
    (Int.lt_zpow_iff_log_lt (by norm_num) hx).1 (by simpa using h2)
  have heq : Int.log 2 |x| = e := by omega
  unfold binary32Ulp
  rw [heq, max_eq_left he]

theorem roundTiesEven_eq_of_near (q : ℚ) (z : ℤ) (h : |q - z| < 1 / 2) : roundTiesEven q = z := by
  have h1 := roundTiesEven_abs_sub_le q
  rw [abs_le] at h1
  rw [abs_lt] at h
  have hlt : ((roundTiesEven q : ℤ) : ℚ) < ((z + 1 : ℤ) : ℚ) := by
    push_cast
    linarith [h1.2, h.1]
  have hgt : ((z - 1 : ℤ) : ℚ) < ((roundTiesEven q : ℤ) : ℚ) := by
    push_cast
    linarith [h1.1, h.2]
  have hlt' : roundTiesEven q < z + 1 := by exact_mod_cast hlt
  have hgt' : z - 1 < roundTiesEven q := by exact_mod_cast hgt
  omega

theorem roundBinary32_eval (x : ℚ) (e z : ℤ) (he : -126 ≤ e) (h1 : 2 ^ e ≤ |x|)
    (h2 : |x| < 2 ^ (e + 1)) (hz : |x / 2 ^ (e - 23) - z| < 1 / 2) :
    roundBinary32 x = (z : ℚ) * 2 ^ (e - 23) := by
  unfold roundBinary32
  rw [binary32Ulp_of_binade x e he h1 h2, roundTiesEven_eq_of_near _ z hz]

/-- The products of `PwmInfo(0.5, 2^-28)`: every operation is exact. -/
theorem roundBinary32_half_mul_small :
    roundBinary32 ((1 / 2 : ℚ) * (1 / 2 ^ 28)) = 1 / 2 ^ 29 ∧
    roundBinary32 ((1 / 2 ^ 29 : ℚ) * 1000000000) = 1953125 / 2 ^ 20 ∧
    roundBinary32 ((1 : ℚ) - 1 / 2) = 1 / 2 :=
  ⟨(roundBinary32_eq_self _ 1 (-29) (by norm_num [zpow_neg]) (by decide) (by decide)).trans
      (by norm_num),
   (roundBinary32_eq_self _ 1953125 (-20) (by norm_num [zpow_neg]) (by decide) (by decide)).trans
      (by norm_num),
   (roundBinary32_eq_self _ 1 (-1) (by norm_num [zpow_neg]) (by decide) (by decide)).trans
      (by norm_num)⟩

/-- The products of `PwmInfo(0.5, 1 + 2^-23)`: the multiplication by 1000000000
rounds 500000059.6 to 500000064. -/
theorem roundBinary32_half_mul_one_ulp :
    roundBinary32 ((1 / 2 : ℚ) * (1 + 1 / 2 ^ 23)) = 8388609 / 2 ^ 24 ∧
    roundBinary32 ((8388609 / 2 ^ 24 : ℚ) * 1000000000) = 500000064 :=
  ⟨(roundBinary32_eq_self _ 8388609 (-24) (by norm_num [zpow_neg]) (by decide) (by decide)).trans
      (by norm_num),
   (roundBinary32_eval _ 28 15625002 (by decide) (by norm_num [abs_of_nonneg])
      (by norm_num [abs_of_nonneg]) (by norm_num [abs_lt])).trans (by norm_num)⟩

/-- The constructor at duty 0.5 and period `1 + 2^-23`: both fields are 500000064,
and their sum lies above `period * 1e9 = 1000000119.2`. -/
theorem ofDutyPeriod_half_one_ulp :
    PwmInfo.ofDutyPeriod (1 / 2) (1 + 1 / 2 ^ 23) = ⟨500000064, 500000064⟩ := by
  simp only [PwmInfo.ofDutyPeriod, roundBinary32_half_mul_one_ulp.1,
    roundBinary32_half_mul_one_ulp.2, roundBinary32_half_mul_small.2.2, truncToInt]
  norm_num
  rfl

/-- C16 (counterexample): `PwmInfo(0.5, 2^-28)`, a period of about 3.7 ns.  Every
float operation is exact, both products are `1953125 / 2^20 = 1.86...` and are
truncated to 1, so `nsHigh + nsLow = 2`, whereas
`max(0, round(period * 1e9)) = round(3.72...) = 4`. -/
theorem C16_truncation_loses_nanoseconds :
    PwmInfo.ofDutyPeriod (1 / 2) (1 / 2 ^ 28) = ⟨1, 1⟩ ∧
    max 0 (round ((1 / 2 ^ 28 : ℚ) * 1000000000)) = 4 := by
  constructor
  · simp only [PwmInfo.ofDutyPeriod, roundBinary32_half_mul_small.1,
      roundBinary32_half_mul_small.2.1, roundBinary32_half_mul_small.2.2, truncToInt]
    norm_num
  · rw [round_eq]
    norm_num

/-- C16 (amended): for every duty in `[0, 1]` and every period in seconds, both finite
binary32 values, with every float operation rounded to binary32 and both values
passed to the `(int)` cast within the range of `int`, each field of
`PwmInfo(duty, period)` is `max(0, trunc(rounded product))` and
`max(0, period * 1e9) * (1 - 2^-22) - 3 < nsHigh + nsLow <
max(0, period * 1e9) * (1 + 2^-22) + 1`. -/
theorem C16_period_sum_within_rounding (duty period : ℚ) (h0 : 0 ≤ duty) (h1 : duty ≤ 1)
    (_hduty : roundBinary32 duty = duty) (_hperiod : roundBinary32 period = period)
    (_hfinite : |period| < 2 ^ 128)
    (_hr1 : |roundBinary32 (roundBinary32 (duty * period) * 1000000000)| < 2 ^ 31)
    (_hr2 : |roundBinary32 (roundBinary32 (roundBinary32 (1 - duty) * period) * 1000000000)|
      < 2 ^ 31) :
    (PwmInfo.ofDutyPeriod duty period).nsHigh =
      (max 0 (truncToInt
        (roundBinary32 (roundBinary32 (duty * period) * 1000000000)))).toNat ∧
    (PwmInfo.ofDutyPeriod duty period).nsLow =
      (max 0 (truncToInt
        (roundBinary32
          (roundBinary32 (roundBinary32 (1 - duty) * period) * 1000000000)))).toNat ∧
    max 0 (period * 1000000000) * (1 - 1 / 2 ^ 22) - 3 <
      (((PwmInfo.ofDutyPeriod duty period).nsHigh +
        (PwmInfo.ofDutyPeriod duty period).nsLow : ℕ) : ℚ) ∧
    (((PwmInfo.ofDutyPeriod duty period).nsHigh +
        (PwmInfo.ofDutyPeriod duty period).nsLow : ℕ) : ℚ) <
      max 0 (period * 1000000000) * (1 + 1 / 2 ^ 22) + 1 := by
  refine ⟨rfl, rfl, ?_⟩
  clear _hduty _hperiod _hfinite _hr1 _hr2
  have hd : 0 ≤ 1 - duty := by linarith
  simp only [PwmInfo.ofDutyPeriod, Nat.cast_add]
  rcases le_total 0 period with hp | hp
  · have ha0 : 0 ≤ duty * period := mul_nonneg h0 hp
    obtain ⟨a1l, a1u, a1n⟩ := roundBinary32_bounds _ ha0
    have ha2 : 0 ≤ roundBinary32 (duty * period) * 1000000000 := by positivity
    obtain ⟨a3l, a3u, a3n⟩ := roundBinary32_bounds _ ha2
    obtain ⟨b1l, b1u, b1n⟩ := roundBinary32_bounds _ hd
    have hb2 : 0 ≤ roundBinary32 (1 - duty) * period := mul_nonneg b1n hp
    obtain ⟨b3l, b3u, b3n⟩ := roundBinary32_bounds _ hb2
    have hb4 : 0 ≤ roundBinary32 (roundBinary32 (1 - duty) * period) * 1000000000 := by
      positivity
    obtain ⟨b5l, b5u, b5n⟩ := roundBinary32_bounds _ hb4
    obtain ⟨fa1, fa2⟩ := truncToInt_of_nonneg _ a3n
    obtain ⟨fb1, fb2⟩ := truncToInt_of_nonneg _ b5n
    have hmul_l := mul_le_mul_of_nonneg_right b1l hp
    have hmul_u := mul_le_mul_of_nonneg_right b1u hp
    have hx : 0 ≤ period * 1000000000 := by positivity
    have hdp : duty * period ≤ period := by nlinarith
    rw [max_eq_right hx]
    constructor
    · linarith
    · linarith
  · have ha0 : duty * period ≤ 0 := mul_nonpos_of_nonneg_of_nonpos h0 hp
    have a1 := roundBinary32_nonpos _ ha0
    have a3 := roundBinary32_nonpos (roundBinary32 (duty * period) * 1000000000) (by linarith)
    have b1 := roundBinary32_nonneg _ hd
    have hb2 : roundBinary32 (1 - duty) * period ≤ 0 := mul_nonpos_of_nonneg_of_nonpos b1 hp
    have b3 := roundBinary32_nonpos _ hb2
    have b5 := roundBinary32_nonpos
      (roundBinary32 (roundBinary32 (1 - duty) * period) * 1000000000) (by linarith)
    have hx : period * 1000000000 ≤ 0 := by linarith
    rw [truncToInt_of_nonpos _ a3, truncToInt_of_nonpos _ b5, max_eq_left hx]
    norm_num

/-- Witness for C16 (amended): duty 0.5 and period `1 + 2^-23`, where the
multiplications by 1000000000 round; the sum of the fields is 1000000128. -/
theorem C16_period_sum_within_rounding_witness :
    max 0 ((1 + 1 / 2 ^ 23 : ℚ) * 1000000000) * (1 - 1 / 2 ^ 22) - 3 <
      (((PwmInfo.ofDutyPeriod (1 / 2) (1 + 1 / 2 ^ 23)).nsHigh +
        (PwmInfo.ofDutyPeriod (1 / 2) (1 + 1 / 2 ^ 23)).nsLow : ℕ) : ℚ) ∧
    (((PwmInfo.ofDutyPeriod (1 / 2) (1 + 1 / 2 ^ 23)).nsHigh +
        (PwmInfo.ofDutyPeriod (1 / 2) (1 + 1 / 2 ^ 23)).nsLow : ℕ) : ℚ) <
      max 0 ((1 + 1 / 2 ^ 23 : ℚ) * 1000000000) * (1 + 1 / 2 ^ 22) + 1 :=
  (C16_period_sum_within_rounding (1 / 2) (1 + 1 / 2 ^ 23) (by norm_num) (by norm_num)
    (roundBinary32_eq_self _ 1 (-1) (by norm_num [zpow_neg]) (by decide) (by decide))
    (roundBinary32_eq_self _ 8388609 (-23) (by norm_num [zpow_neg]) (by decide) (by decide))
    (by norm_num [abs_lt])
    (by
      rw [roundBinary32_half_mul_one_ulp.1, roundBinary32_half_mul_one_ulp.2]
      norm_num [abs_lt])
    (by
      rw [roundBinary32_half_mul_small.2.2, roundBinary32_half_mul_one_ulp.1,
        roundBinary32_half_mul_one_ulp.2]
      norm_num [abs_lt])).2.2

/-- C19 (evaluation at the failing input): channel 7 is started with `{3, 4}` at time
0, disabled with `{0, 0}` and started again with `{3, 4}` at time 2 before its
pending event has been popped.  The queue then holds two events of channel 7,
and after two `nextEvent` calls it again holds two events of channel 7: the
channel carries two self-refeeding streams. -/
theorem C19_reenabled_channel_has_two_streams :
    (Scheduler.run Scheduler.construct
        [Op.schedPwm 7 ⟨3, 4⟩ 0, Op.schedPwm 7 ⟨0, 0⟩ 1, Op.schedPwm 7 ⟨3, 4⟩ 2]).map
      (fun s => (s.eventQueue, (s.drain 2).eventQueue))
      = some ([Event.make 0 7 StepDirection.StepForward,
               Event.make 2 7 StepDirection.StepForward],
              [Event.make 3 7 StepDirection.StepBackward,
               Event.make 5 7 StepDirection.StepBackward]) := by
  decide

theorem ofDutyPeriod_half_of_two_ns :
    PwmInfo.ofDutyPeriod (1 / 2) (PwmInfo.period ⟨1, 1⟩) = ⟨1000000000, 1000000000⟩ := by
  have e0 : roundBinary32 (((1 + 1) % 2 ^ 32 : ℕ) : ℚ) = 2 :=
    (roundBinary32_eq_self _ 1 1 (by norm_num) (by decide) (by decide)).trans (by norm_num)
  have e1 : roundBinary32 ((1 / 2 : ℚ) * 2) = 1 :=
    (roundBinary32_eq_self _ 1 0 (by norm_num) (by decide) (by decide)).trans (by norm_num)
  have e2 : roundBinary32 ((1 : ℚ) * 1000000000) = 1000000000 :=
    (roundBinary32_eq_self _ 1953125 9 (by norm_num) (by decide) (by decide)).trans (by norm_num)
  simp only [PwmInfo.ofDutyPeriod, PwmInfo.period, e0, e1, e2,
    roundBinary32_half_mul_small.2.2, truncToInt]
  norm_num
  rfl

/-- C20 (evaluation at the failing input): channel 7 runs with `{1, 1}`, a period of
2 ns.  `schedPwm(7, 0.5)` stores `{1000000000, 1000000000}`: the period has
become 2000000000 ns and `nsHigh` is `trunc(0.5 * 2 * 1e9)`, not
`trunc(0.5 * 2) = 1`. -/
theorem C20_schedPwm_duty_multiplies_period :
    ((⟨Function.update (fun _ => PwmInfo.zero) 7 ⟨1, 1⟩,
        [Event.make 10 7 StepDirection.StepForward], 4⟩ : Scheduler).schedPwmDuty 7 (1 / 2) 0).map
      (fun s1 => s1.pwmInfo 7) = some ⟨1000000000, 1000000000⟩ := by
  have hentry : Function.update (fun _ => PwmInfo.zero) (7 : AxisIdType) ⟨1, 1⟩ 7 = ⟨1, 1⟩ := by
    simp
  simp only [Scheduler.schedPwmDuty, hentry, ofDutyPeriod_half_of_two_ns, Scheduler.schedPwm]
  simp

end Printipi
